import Mathlib

/-!
Verification development for the gamdam download coordinator.

The Rust sources are shallowly embedded: byte buffers become `List Nat`
(one `Nat` per byte, `10` = LF, `13` = CR), fallible operations return
`Except`, the in-flight registry becomes an association list with the
same add/pop semantics, and the reader / post-processor tasks become
pure recursive functions over the list of records they would receive,
with the log calls reified as events.
-/

namespace Gamdam

/-! ### src/filepath.rs - normalized relative paths

`FilePath::try_from` walks `std::path::Path::components()`; we model the
Unix component parser ("." components are dropped except in leading
position, empty components are skipped, a leading "/" yields a RootDir)
and the conversion loop verbatim.  The `Undecodable` branch guards
non-UTF-8 byte sequences, which cannot be represented by a Lean
`String`, so it is unreachable in the model. -/

inductive Component where
  | rootDir
  | curDir
  | parentDir
  | normal (s : String)
deriving DecidableEq

def splitSlash (cs : List Char) : List (List Char) :=
  match cs with
  | [] => [[]]
  | c :: rest =>
      if c = '/' then [] :: splitSlash rest
      else
        match splitSlash rest with
        | g :: gs => (c :: g) :: gs
        | [] => [[c]]

def componentOf (part : List Char) : Component :=
  if part = ['.'] then Component.curDir
  else if part = ['.', '.'] then Component.parentDir
  else Component.normal (String.mk part)

def rawComponents (path : String) : List Component :=
  ((splitSlash path.toList).filter (fun s => s ≠ [])).map componentOf

def components (path : String) : List Component :=
  match path.toList with
  | '/' :: _ =>
      Component.rootDir :: (rawComponents path).filter (fun c => c ≠ Component.curDir)
  | _ =>
    match rawComponents path with
    | Component.curDir :: rest =>
        Component.curDir :: rest.filter (fun c => c ≠ Component.curDir)
    | l => l.filter (fun c => c ≠ Component.curDir)

inductive FilePathError where
  | empty
  | notNormalized
  | notRelative
  | undecodable
deriving DecidableEq

def tryFromLoop : List Component → String → Except FilePathError String
  | [], output => if output = "" then Except.error FilePathError.empty else Except.ok output
  | Component.normal s :: rest, output =>
      tryFromLoop rest (if output = "" then s else output ++ "/" ++ s)
  | Component.curDir :: rest, output => tryFromLoop rest output
  | Component.parentDir :: _, _ => Except.error FilePathError.notNormalized
  | Component.rootDir :: _, _ => Except.error FilePathError.notRelative

def FilePath.tryFrom (path : String) : Except FilePathError String :=
  tryFromLoop (components path) ""

/-! ### src/lib.rs - Downloadable, InProgress, DownloadResult, Report -/

structure Downloadable where
  path : String
  url : String
  metadata : List (String × List String)
  extra_urls : List String
deriving DecidableEq

structure AnnexError where
  messages : List String
deriving DecidableEq

/-- The in-flight registry `InProgress`: a `Mutex<HashMap<RelativePathBuf,
Downloadable>>`, modelled as an association list keyed by path. -/
structure InProgress where
  data : List (String × Downloadable)
deriving DecidableEq

def InProgress.contains (m : InProgress) (p : String) : Bool :=
  m.data.any (fun e => e.1 = p)

/-- `InProgress::add`: `Entry::Occupied` yields `false`, `Entry::Vacant`
inserts and yields `true`. -/
def InProgress.add (m : InProgress) (dl : Downloadable) : Bool × InProgress :=
  if m.contains dl.path then (false, m)
  else (true, ⟨(dl.path, dl) :: m.data⟩)

def popAssoc : List (String × Downloadable) → String →
    Option (Downloadable × List (String × Downloadable))
  | [], _ => none
  | e :: rest, file =>
      if e.1 = file then some (e.2, rest)
      else
        match popAssoc rest file with
        | some (dl, rest') => some (dl, e :: rest')
        | none => none

/-- `InProgress::pop`: `HashMap::remove`, failing loudly when the key is
absent. -/
def InProgress.pop (m : InProgress) (file : String) :
    Except String (Downloadable × InProgress) :=
  match popAssoc m.data file with
  | some (dl, d) => Except.ok (dl, ⟨d⟩)
  | none => Except.error ("No record found for download of " ++ file)

instance {ε α : Type} [DecidableEq ε] [DecidableEq α] : DecidableEq (Except ε α) := fun a b =>
  match a, b with
  | Except.ok x, Except.ok y =>
      if h : x = y then isTrue (congrArg Except.ok h)
      else isFalse (fun hh => h (Except.ok.inj hh))
  | Except.error x, Except.error y =>
      if h : x = y then isTrue (congrArg Except.error h)
      else isFalse (fun hh => h (Except.error.inj hh))
  | Except.ok _, Except.error _ => isFalse (fun hh => Except.noConfusion hh)
  | Except.error _, Except.ok _ => isFalse (fun hh => Except.noConfusion hh)

structure DownloadResult where
  downloadable : Downloadable
  download : Except AnnexError Unit
  key : Option String
  metadata_added : Option (Except AnnexError Unit)
  urls_added : List (String × Except AnnexError Unit)
deriving DecidableEq

def isOkB : Except AnnexError Unit → Bool
  | Except.ok _ => true
  | Except.error _ => false

/-- `DownloadResult::success`. -/
def DownloadResult.success (r : DownloadResult) : Bool :=
  isOkB r.download
    && !(match r.metadata_added with
         | some (Except.error _) => true
         | _ => false)
    && r.urls_added.all (fun e => isOkB e.2)

def DownloadResult.successful_download (dl : Downloadable) (key : Option String) :
    DownloadResult :=
  ⟨dl, Except.ok (), key, none, []⟩

def DownloadResult.failed_download (dl : Downloadable) (e : AnnexError) :
    DownloadResult :=
  ⟨dl, Except.error e, none, none, []⟩

structure Report where
  successful : List DownloadResult
  failed : List DownloadResult
deriving DecidableEq

/-! ### src/main.rs - the post-download commit gate

After `download` returns a report, `main` runs `git diff --cached
--quiet` and commits only when that check exits non-zero; a zero exit
means nothing is staged, and a startup failure propagates.  The whole
block is guarded by `!successful.is_empty() && save &&
(!no_save_on_fail || failed.is_empty())`. -/

inductive CommandError where
  | startup (cmdline : String)
  | exit (cmdline : String) (rc : Int)
deriving DecidableEq

inductive CommitAction where
  | committed (msg : String)
  | noCommit
deriving DecidableEq

def commitMessage (message : String) (report : Report) : String :=
  message.replace "{downloaded}" (toString report.successful.length)

def saveStep (save no_save_on_fail : Bool) (message : String) (report : Report)
    (diff : Except CommandError Unit) : Except CommandError CommitAction :=
  if !report.successful.isEmpty && save && (!no_save_on_fail || report.failed.isEmpty) then
    match diff with
    | Except.error (CommandError.exit _ _) =>
        Except.ok (CommitAction.committed (commitMessage message report))
    | Except.ok _ => Except.ok CommitAction.noCommit
    | Except.error e => Except.error e
  else Except.ok CommitAction.noCommit

/-! ### src/blc.rs - BinaryLinesCodec

Byte buffers are `List Nat`.  The decoder state carries `next_index`
(scan resume point), `max_length`, and `is_discarding`.  The Rust
`decode` is a `loop`; `decodeBody` is one iteration of that loop
(`StepOut.again` is the loop's `continue`), and `decode` iterates it.
The iteration is driven by fuel `buf.length + 1`, which is proved
sufficient below, so that the function both matches the source and
computes by `rfl`/`decide`.  (Rust's `max_length.saturating_add(1)` is
`max_length + 1` on `Nat`; the slice `buf[next_index..read_to]`, which
in Rust requires `next_index <= read_to`, is the total
`(buf.take read_to).drop next_index`.) -/

structure BinaryLinesCodec where
  next_index : Nat
  max_length : Nat
  is_discarding : Bool
deriving DecidableEq

def BinaryLinesCodec.newWithMaxLength (max_length : Nat) : BinaryLinesCodec :=
  ⟨0, max_length, false⟩

def without_carriage_return (s : List Nat) : List Nat :=
  if s.getLast? = some 13 then s.dropLast else s

inductive DecodeResult where
  | frame (line : List Nat)
  | pending
  | maxLineLengthExceeded
deriving DecidableEq

inductive StepOut where
  | yield (r : DecodeResult) (st : BinaryLinesCodec) (buf : List Nat)
  | again (st : BinaryLinesCodec) (buf : List Nat)
deriving DecidableEq

def decodeBody (st : BinaryLinesCodec) (buf : List Nat) : StepOut :=
  let read_to := min (st.max_length + 1) buf.length
  let newline_offset := ((buf.take read_to).drop st.next_index).findIdx? (fun b => b == 10)
  match st.is_discarding, newline_offset with
  | true, some offset =>
      StepOut.again ⟨0, st.max_length, false⟩ (buf.drop (offset + st.next_index + 1))
  | true, none =>
      let buf' := buf.drop read_to
      if buf'.isEmpty then StepOut.yield DecodeResult.pending ⟨0, st.max_length, true⟩ buf'
      else StepOut.again ⟨0, st.max_length, true⟩ buf'
  | false, some offset =>
      let newline_index := offset + st.next_index
      StepOut.yield (DecodeResult.frame (without_carriage_return (buf.take newline_index)))
        ⟨0, st.max_length, false⟩ (buf.drop (newline_index + 1))
  | false, none =>
      if st.max_length < buf.length then
        StepOut.yield DecodeResult.maxLineLengthExceeded
          ⟨st.next_index, st.max_length, true⟩ buf
      else
        StepOut.yield DecodeResult.pending ⟨read_to, st.max_length, false⟩ buf

def decodeLoop : Nat → BinaryLinesCodec → List Nat →
    DecodeResult × BinaryLinesCodec × List Nat
  | 0, st, buf => (DecodeResult.pending, st, buf)
  | fuel + 1, st, buf =>
      match decodeBody st buf with
      | StepOut.yield r st' buf' => (r, st', buf')
      | StepOut.again st' buf' => decodeLoop fuel st' buf'

/-- `BinaryLinesCodec::decode`.  The fuel `buf.length + 1` is sufficient
because every `again` iteration strictly shortens the buffer. -/
def BinaryLinesCodec.decode (st : BinaryLinesCodec) (buf : List Nat) :
    DecodeResult × BinaryLinesCodec × List Nat :=
  decodeLoop (buf.length + 1) st buf

/-- `BinaryLinesCodec::decode_eof`: after `decode` returns no frame, a
remaining buffer that is neither empty nor a lone CR is emitted whole. -/
def BinaryLinesCodec.decodeEof (st : BinaryLinesCodec) (buf : List Nat) :
    DecodeResult × BinaryLinesCodec × List Nat :=
  match BinaryLinesCodec.decode st buf with
  | (DecodeResult.pending, st', buf') =>
      if buf' = [] ∨ buf' = [13] then (DecodeResult.pending, st', buf')
      else (DecodeResult.frame (without_carriage_return buf'),
        ⟨0, st'.max_length, st'.is_discarding⟩, [])
  | out => out

/-- `BinaryLinesCodec::encode`: append the payload and a single LF to the
output buffer. -/
def BinaryLinesCodec.encode (line : List Nat) (buf : List Nat) : List Nat :=
  buf ++ line ++ [10]

/-- The concatenation `encode(x1), encode(x2), ...` into one stream. -/
def encodeAll (xs : List (List Nat)) : List Nat :=
  xs.foldl (fun buf x => BinaryLinesCodec.encode x buf) []

/-! The framed-read driver: after each arriving chunk the decoder is
polled until it reports `pending` (errors are reported as items and
polling continues, as in `FramedRead`); at stream end `decode_eof` is
polled the same way.  Both loops are fueled; `2 * buf.length + 2` is
proved sufficient below. -/

inductive StreamItem where
  | frame (line : List Nat)
  | decodeError
deriving DecidableEq

def drainLoop : Nat → BinaryLinesCodec → List Nat →
    List StreamItem × BinaryLinesCodec × List Nat
  | 0, st, buf => ([], st, buf)
  | fuel + 1, st, buf =>
      match BinaryLinesCodec.decode st buf with
      | (DecodeResult.frame l, st', buf') =>
          let r := drainLoop fuel st' buf'
          (StreamItem.frame l :: r.1, r.2)
      | (DecodeResult.maxLineLengthExceeded, st', buf') =>
          let r := drainLoop fuel st' buf'
          (StreamItem.decodeError :: r.1, r.2)
      | (DecodeResult.pending, st', buf') => ([], st', buf')

def drain (st : BinaryLinesCodec) (buf : List Nat) :
    List StreamItem × BinaryLinesCodec × List Nat :=
  drainLoop (2 * buf.length + 2) st buf

def drainEofLoop : Nat → BinaryLinesCodec → List Nat →
    List StreamItem × BinaryLinesCodec × List Nat
  | 0, st, buf => ([], st, buf)
  | fuel + 1, st, buf =>
      match BinaryLinesCodec.decodeEof st buf with
      | (DecodeResult.frame l, st', buf') =>
          let r := drainEofLoop fuel st' buf'
          (StreamItem.frame l :: r.1, r.2)
      | (DecodeResult.maxLineLengthExceeded, st', buf') =>
          let r := drainEofLoop fuel st' buf'
          (StreamItem.decodeError :: r.1, r.2)
      | (DecodeResult.pending, st', buf') => ([], st', buf')

def drainEof (st : BinaryLinesCodec) (buf : List Nat) :
    List StreamItem × BinaryLinesCodec × List Nat :=
  drainEofLoop (2 * buf.length + 2) st buf

def feedChunks (st : BinaryLinesCodec) (buf : List Nat) :
    List (List Nat) → List StreamItem × BinaryLinesCodec × List Nat
  | [] => ([], st, buf)
  | c :: cs =>
      let r := drain st (buf ++ c)
      let r2 := feedChunks r.2.1 r.2.2 cs
      (r.1 ++ r2.1, r2.2)

/-- Feed a chunked byte stream through a fresh decoder with the given
`max_length`, polling after every chunk and at end of stream, and
collect the decoded frames and decode errors in order. -/
def decodeChunked (max_length : Nat) (cs : List (List Nat)) : List StreamItem :=
  let r := feedChunks (BinaryLinesCodec.newWithMaxLength max_length) [] cs
  let r2 := drainEof r.2.1 r.2.2
  r.1 ++ r2.1

/-! ### src/annex/addurl.rs and src/lib.rs - the reader task

`AddURLOutput` mirrors the untagged serde enum.  The reader task
`Gamdam::read_addurl` is embedded as a pure recursion over the list of
records the addurl stream would deliver; log calls are reified as
`LogEvent`s (each event carries exactly the values interpolated into the
corresponding `log::...!` format string, including the `"???"` /
`"??.??%"` fallbacks computed in lib.rs).  The reader-to-post-processor
channel is summarised by `sendOk`: `true` while the receiver is alive
(`send` succeeds), `false` once it has exited (`send` errors, so the
source's `.unwrap()` panics, modelled by `TaskOutcome.panicked`). -/

structure Action where
  command : String
  file : Option String
  input : List String
deriving DecidableEq

structure AnnexResult where
  success : Bool
  error_messages : List String
deriving DecidableEq

inductive AddURLOutput where
  | progress (byte_progress : Nat) (total_size : Option Nat)
      (percent_progress : Option String) (action : Action)
  | completion (key : Option String) (action : Action) (result : AnnexResult)
      (note : Option String)
deriving DecidableEq

/-- Modelled from the spec: `AddURLOutput::file` is called by
`Gamdam::read_addurl` but its definition is not among the sources; per
the spec's action envelope ("optional `file` ... may be absent during a
progressive addurl for an unnamed target") it projects the record's
action `file`, for the Progress and Completion shapes alike. -/
def AddURLOutput.file : AddURLOutput → Option String
  | AddURLOutput.progress _ _ _ a => a.file
  | AddURLOutput.completion _ a _ _ => a.file

/-- Modelled from the spec: `AddURLOutput::check` is called by
`Gamdam::read_addurl` but its definition is not among the sources; like
the in-tree `MetadataOutput::check`, a record whose result has
`success = false` maps to the error of its `error-messages`, and every
other record (Progress has no result envelope) passes through. -/
def AddURLOutput.check : AddURLOutput → Except AnnexError AddURLOutput
  | AddURLOutput.progress b t p a => Except.ok (AddURLOutput.progress b t p a)
  | AddURLOutput.completion k a r n =>
      if r.success then Except.ok (AddURLOutput.completion k a r n)
      else Except.error ⟨r.error_messages⟩

inductive LogEvent where
  | progress (file : String) (byte_progress : Nat) (total_size_str : String)
      (percent_str : String)
  | finished (file : String) (key_str : String)
  | downloadFailed (file : String) (e : AnnexError)
deriving DecidableEq

inductive TaskOutcome (α : Type) where
  | ok (val : α)
  | fail (msg : String)
  | panicked (msg : String)
deriving DecidableEq

def read_addurl (sendOk : Bool) : List AddURLOutput → InProgress →
    TaskOutcome (List DownloadResult × List LogEvent × InProgress)
  | [], ip => TaskOutcome.ok ([], [], ip)
  | r :: rest, ip =>
    match r.file with
    | none => TaskOutcome.fail "`git-annex addurl` outputted a line without a file"
    | some file =>
      match r.check with
      | Except.ok (AddURLOutput.progress byte_progress total_size percent_progress _) =>
          (match read_addurl sendOk rest ip with
           | TaskOutcome.ok (sent, logs, ipf) =>
               TaskOutcome.ok (sent,
                 LogEvent.progress file byte_progress
                   (match total_size with
                    | some i => toString i
                    | none => "???")
                   (percent_progress.getD "??.??%") :: logs, ipf)
           | other => other)
      | Except.ok (AddURLOutput.completion key _ _ _) =>
          (match ip.pop file with
           | Except.error msg => TaskOutcome.fail msg
           | Except.ok (dl, ip') =>
             if sendOk then
               match read_addurl sendOk rest ip' with
               | TaskOutcome.ok (sent, logs, ipf) =>
                   TaskOutcome.ok (DownloadResult.successful_download dl key :: sent,
                     LogEvent.finished file (key.getD "<none>") :: logs, ipf)
               | other => other
             else TaskOutcome.panicked "called `Result::unwrap()` on an `Err` value")
      | Except.error e =>
          (match ip.pop file with
           | Except.error msg => TaskOutcome.fail msg
           | Except.ok (dl, ip') =>
             if sendOk then
               match read_addurl sendOk rest ip' with
               | TaskOutcome.ok (sent, logs, ipf) =>
                   TaskOutcome.ok (DownloadResult.failed_download dl e :: sent,
                     LogEvent.downloadFailed file e :: logs, ipf)
               | other => other
             else TaskOutcome.panicked "called `Result::unwrap()` on an `Err` value")

/-! ### src/lib.rs - the post-process task `Gamdam::add_metadata`

The two long-lived workers are abstracted as oracles: `chat` either
fails fatally (outer `Except.error`, the `?` operator in Rust) or
returns the `check`ed outcome of the worker's response.  `processItem`
is the body of the `while let Some(mut r) = receiver.recv()` loop for
one received `DownloadResult`; it also records which worker requests
were issued, and the log calls as `PostLog` events. -/

structure MetadataInput where
  key : String
  fields : List (String × List String)
deriving DecidableEq

structure RegisterURLInput where
  key : String
  url : String
deriving DecidableEq

structure Oracles where
  metadataChat : MetadataInput → Except String (Except AnnexError Unit)
  registerurlChat : RegisterURLInput → Except String (Except AnnexError Unit)

inductive PostLog where
  | settingMetadata (path : String)
  | setMetadata (path : String)
  | metadataFailed (path : String) (e : AnnexError)
  | registering (url : String) (path : String)
  | registered (url : String) (path : String)
  | registerFailed (path : String) (url : String) (e : AnnexError)
  | cannotSetMetadata (path : String)
deriving DecidableEq

/-- `HashMap::insert` on the `urls_added` map: replace an existing
binding for the key, otherwise append. -/
def assocInsert (m : List (String × Except AnnexError Unit)) (k : String)
    (v : Except AnnexError Unit) : List (String × Except AnnexError Unit) :=
  if m.any (fun e => e.1 = k) then m.map (fun e => if e.1 = k then (k, v) else e)
  else m ++ [(k, v)]

structure StepResult where
  item : DownloadResult
  toSuccessful : Bool
  logs : List PostLog
  metadataCalls : List MetadataInput
  registerurlCalls : List RegisterURLInput
deriving DecidableEq

def registerLoop (o : Oracles) (key : String) (path : String) :
    List String → DownloadResult → Bool → List PostLog → List RegisterURLInput →
    Except String (DownloadResult × Bool × List PostLog × List RegisterURLInput)
  | [], r, success, logs, calls => Except.ok (r, success, logs, calls)
  | u :: us, r, success, logs, calls =>
      match o.registerurlChat ⟨key, u⟩ with
      | Except.error msg => Except.error msg
      | Except.ok (Except.ok _) =>
          registerLoop o key path us
            { r with urls_added := assocInsert r.urls_added u (Except.ok ()) } success
            (logs ++ [PostLog.registering u path, PostLog.registered u path])
            (calls ++ [⟨key, u⟩])
      | Except.ok (Except.error e) =>
          registerLoop o key path us
            { r with urls_added := assocInsert r.urls_added u (Except.error e) } false
            (logs ++ [PostLog.registering u path, PostLog.registerFailed path u e])
            (calls ++ [⟨key, u⟩])

def processItem (o : Oracles) (r : DownloadResult) : Except String StepResult :=
  let path := r.downloadable.path
  match r.download with
  | Except.error _ => Except.ok ⟨r, false, [], [], []⟩
  | Except.ok _ =>
    match r.key with
    | some key =>
      let afterMeta :
          Except String (DownloadResult × Bool × List PostLog × List MetadataInput) :=
        if r.downloadable.metadata = [] then Except.ok (r, true, [], [])
        else
          match o.metadataChat ⟨key, r.downloadable.metadata⟩ with
          | Except.error msg => Except.error msg
          | Except.ok (Except.ok _) =>
              Except.ok ({ r with metadata_added := some (Except.ok ()) }, true,
                [PostLog.settingMetadata path, PostLog.setMetadata path],
                [⟨key, r.downloadable.metadata⟩])
          | Except.ok (Except.error e) =>
              Except.ok ({ r with metadata_added := some (Except.error e) }, false,
                [PostLog.settingMetadata path, PostLog.metadataFailed path e],
                [⟨key, r.downloadable.metadata⟩])
      match afterMeta with
      | Except.error msg => Except.error msg
      | Except.ok (r1, success1, logs1, mcalls) =>
          match registerLoop o key path r.downloadable.extra_urls r1 success1 logs1 [] with
          | Except.error msg => Except.error msg
          | Except.ok (r2, success2, logs2, ucalls) =>
              Except.ok ⟨r2, success2, logs2, mcalls, ucalls⟩
    | none =>
        Except.ok ⟨r, true,
          if r.downloadable.metadata ≠ [] ∨ r.downloadable.extra_urls ≠ [] then
            [PostLog.cannotSetMetadata path]
          else [], [], []⟩

/-- The post-process task over the full received stream, partitioning
items into the report's `successful` and `failed` lists in arrival
order. -/
def add_metadata (o : Oracles) : List DownloadResult → Except String Report
  | [] => Except.ok ⟨[], []⟩
  | r :: rest =>
      match processItem o r with
      | Except.error msg => Except.error msg
      | Except.ok s =>
          match add_metadata o rest with
          | Except.error msg => Except.error msg
          | Except.ok rep =>
              if s.toSuccessful then Except.ok ⟨s.item :: rep.successful, rep.failed⟩
              else Except.ok ⟨rep.successful, s.item :: rep.failed⟩

/-! Sample values used by the concrete witnesses. -/

def dlSample : Downloadable := ⟨"f.txt", "https://example.com/f", [], []⟩

def drSample : DownloadResult := ⟨dlSample, Except.ok (), none, none, []⟩

def drFailedSample : DownloadResult :=
  ⟨dlSample, Except.error ⟨["  download failed: Not Found"]⟩, none, none, []⟩

def oSample : Oracles :=
  ⟨fun _ => Except.error "metadata worker unavailable",
   fun _ => Except.error "registerurl worker unavailable"⟩

/-! ## Theorems -/

/-! ### Helper lemmas for the in-flight registry -/

theorem popAssoc_none_of_not_contains (l : List (String × Downloadable)) (p : String)
    (h : l.any (fun e => e.1 = p) = false) : popAssoc l p = none := by
  induction l with
  | nil => rfl
  | cons e rest ih =>
    simp only [List.any_cons, Bool.or_eq_false_iff, decide_eq_false_iff_not] at h
    simp only [popAssoc, if_neg h.1, ih h.2]

theorem popAssoc_removes : ∀ (l l' : List (String × Downloadable)) (p : String)
    (d : Downloadable), (l.map Prod.fst).Nodup → popAssoc l p = some (d, l') →
    ∀ x ∈ l', x.1 ≠ p := by
  intro l
  induction l with
  | nil => intro l' p d _ h; simp [popAssoc] at h
  | cons e rest ih =>
    intro l' p d hnd h
    rw [List.map_cons, List.nodup_cons] at hnd
    rw [popAssoc] at h
    by_cases he : e.1 = p
    · rw [if_pos he] at h
      injection h with h
      injection h with h1 h2
      subst h2
      intro x hx hxp
      have hmem : x.1 ∈ List.map Prod.fst rest := List.mem_map_of_mem Prod.fst hx
      rw [hxp, ← he] at hmem
      exact hnd.1 hmem
    · rw [if_neg he] at h
      match hrec : popAssoc rest p with
      | some (dl, rest') =>
        rw [hrec] at h
        injection h with h
        injection h with h1 h2
        subst h2
        intro x hx hxp
        rcases List.mem_cons.mp hx with rfl | hx'
        · exact he hxp
        · exact ih rest' p dl hnd.2 hrec x hx' hxp
      | none => rw [hrec] at h; cases h

theorem any_eq_false_of_forall_ne (l : List (String × Downloadable)) (p : String)
    (h : ∀ x ∈ l, x.1 ≠ p) : (l.any fun e => e.1 = p) = false := by
  induction l with
  | nil => rfl
  | cons e rest ih =>
    simp only [List.any_cons, Bool.or_eq_false_iff, decide_eq_false_iff_not]
    exact ⟨h e (List.mem_cons_self e rest),
      ih fun x hx => h x (List.mem_cons_of_mem e hx)⟩

/-- C5: on the in-flight registry, `add` answers `true` exactly while the
path is absent, `false` while it is present (also immediately after a
successful `add` of the same path), a successful `pop` frees the path for
a fresh successful `add`, and `pop` of an absent path returns an error. -/
theorem in_progress_spec (m : InProgress) (dl dl2 : Downloadable) (p : String)
    (hnd : (m.data.map Prod.fst).Nodup) (hsame : dl2.path = dl.path) :
    (m.contains dl.path = false →
        (m.add dl).1 = true ∧ ((m.add dl).2.add dl2).1 = false)
  ∧ (m.contains dl.path = true → (m.add dl).1 = false)
  ∧ (∀ d m', m.pop dl.path = Except.ok (d, m') → (m'.add dl2).1 = true)
  ∧ (m.contains p = false → ∃ msg, m.pop p = Except.error msg) := by
  refine ⟨?_, ?_, ?_, ?_⟩
  · intro hno
    have hno' : (m.data.any fun e => e.1 = dl.path) = false := by
      simpa [InProgress.contains] using hno
    refine ⟨by simp [InProgress.add, InProgress.contains, hno'], ?_⟩
    simp [InProgress.add, InProgress.contains, hno', hsame]
  · intro hyes
    simp [InProgress.add, hyes]
  · intro d m' hpop
    unfold InProgress.pop at hpop
    match hp : popAssoc m.data dl.path with
    | some (d0, l') =>
      rw [hp] at hpop
      injection hpop with hpop
      injection hpop with hp1 hp2
      subst hp2
      have hrm := any_eq_false_of_forall_ne l' dl.path
        (popAssoc_removes m.data l' dl.path d0 hnd hp)
      simp [InProgress.add, InProgress.contains, hsame, hrm]
    | none => rw [hp] at hpop; cases hpop
  · intro hno
    have hnone := popAssoc_none_of_not_contains m.data p (by simpa [InProgress.contains] using hno)
    refine ⟨"No record found for download of " ++ p, ?_⟩
    unfold InProgress.pop
    rw [hnone]

/-- C5 witness: popping from the empty registry errors. -/
theorem in_progress_spec_witness :
    ∃ msg, (InProgress.mk []).pop "x" = Except.error msg :=
  (in_progress_spec ⟨[]⟩ dlSample dlSample "x" (by simp) rfl).2.2.2 (by rfl)

/-- C6: path normalization rewrites "foo/./bar", "foo//bar" and "foo/"
to "foo/bar", "foo/bar" and "foo", and rejects "..", "/foo", "", "." and
"foo/../bar" with an error. -/
theorem filepath_normalization_cases :
    FilePath.tryFrom "foo/./bar" = Except.ok "foo/bar"
  ∧ FilePath.tryFrom "foo//bar" = Except.ok "foo/bar"
  ∧ FilePath.tryFrom "foo/" = Except.ok "foo"
  ∧ FilePath.tryFrom ".." = Except.error FilePathError.notNormalized
  ∧ FilePath.tryFrom "/foo" = Except.error FilePathError.notRelative
  ∧ FilePath.tryFrom "" = Except.error FilePathError.empty
  ∧ FilePath.tryFrom "." = Except.error FilePathError.empty
  ∧ FilePath.tryFrom "foo/../bar" = Except.error FilePathError.notNormalized := by
  refine ⟨?_, ?_, ?_, ?_, ?_, ?_, ?_, ?_⟩ <;> decide

/-! ### Helper lemmas for the success predicate -/

theorem isOkB_eq_true_iff (e : Except AnnexError Unit) :
    isOkB e = true ↔ e = Except.ok () := by
  cases e with
  | ok u => cases u; simp [isOkB]
  | error a => simp [isOkB]

theorem metadata_not_failed_iff (ma : Option (Except AnnexError Unit)) :
    (!(match ma with
       | some (Except.error _) => true
       | _ => false)) = true ↔ ∀ e, ma ≠ some (Except.error e) := by
  match ma with
  | none => simp
  | some (Except.ok u) => simp
  | some (Except.error e) => simp

/-- C7: the success predicate holds exactly when the download succeeded,
the metadata outcome is not a recorded failure, and every registered
extra URL's outcome is a success. -/
theorem download_result_success_iff (r : DownloadResult) :
    r.success = true ↔
      r.download = Except.ok () ∧
      (∀ e, r.metadata_added ≠ some (Except.error e)) ∧
      ∀ pr ∈ r.urls_added, pr.2 = Except.ok () := by
  obtain ⟨dl, d, k, ma, ua⟩ := r
  simp only [DownloadResult.success, Bool.and_eq_true, List.all_eq_true,
    isOkB_eq_true_iff, metadata_not_failed_iff, and_assoc]

/-- C9: no commit is issued when `successful` is empty, none when
`--no-save-on-fail` is set and `failed` is non-empty, and a commit that
is issued carries the message with `{downloaded}` replaced by the number
of successes. -/
theorem commit_gate (save nsf : Bool) (message : String) (report : Report)
    (diff : Except CommandError Unit) :
    (report.successful = [] →
        saveStep save nsf message report diff = Except.ok CommitAction.noCommit)
  ∧ (nsf = true → report.failed ≠ [] →
        saveStep save nsf message report diff = Except.ok CommitAction.noCommit)
  ∧ ∀ msg, saveStep save nsf message report diff = Except.ok (CommitAction.committed msg) →
      msg = message.replace "{downloaded}" (toString report.successful.length) := by
  refine ⟨?_, ?_, ?_⟩
  · intro h
    simp [saveStep, h]
  · intro hnsf hfail
    have hfe : report.failed.isEmpty = false := by
      cases hF : report.failed with
      | nil => exact absurd hF hfail
      | cons a l => rfl
    simp [saveStep, hnsf, hfe]
  · intro msg h
    unfold saveStep at h
    split at h
    · split at h
      · exact (CommitAction.committed.inj (Except.ok.inj h)).symm
      · exact CommitAction.noConfusion (Except.ok.inj h)
      · exact Except.noConfusion h
    · exact CommitAction.noConfusion (Except.ok.inj h)

/-- C9 witness: with `--no-save-on-fail` and a failure, no commit. -/
theorem commit_gate_witness :
    saveStep true true "m" ⟨[drSample], [drFailedSample]⟩
        (Except.error (CommandError.exit "git diff --cached --quiet" 1))
      = Except.ok CommitAction.noCommit :=
  (commit_gate true true "m" ⟨[drSample], [drFailedSample]⟩
    (Except.error (CommandError.exit "git diff --cached --quiet" 1))).2.1 rfl (by simp)

/-- C10: even with successes, saving enabled and the no-save-on-fail
gate passed, the commit runs only when `git diff --cached --quiet` exits
non-zero; a zero exit commits nothing, and a startup failure is returned
as the program's error. -/
theorem commit_staged_check (save nsf : Bool) (message : String) (report : Report)
    (h1 : report.successful ≠ []) (h2 : save = true)
    (h3 : nsf = false ∨ report.failed = []) :
    saveStep save nsf message report (Except.ok ()) = Except.ok CommitAction.noCommit
  ∧ (∀ c rc, saveStep save nsf message report (Except.error (CommandError.exit c rc))
        = Except.ok (CommitAction.committed
            (message.replace "{downloaded}" (toString report.successful.length))))
  ∧ ∀ c, saveStep save nsf message report (Except.error (CommandError.startup c))
        = Except.error (CommandError.startup c) := by
  have hs : report.successful.isEmpty = false := by
    cases hF : report.successful with
    | nil => exact absurd hF h1
    | cons a l => rfl
  have hgate : (!nsf || report.failed.isEmpty) = true := by
    rcases h3 with h | h
    · simp [h]
    · simp [h]
  refine ⟨?_, ?_, ?_⟩
  · simp [saveStep, hs, h2, hgate]
  · intro c rc
    simp [saveStep, hs, h2, hgate, commitMessage]
  · intro c
    simp [saveStep, hs, h2, hgate]

/-- C10 witness: with successes and nothing staged, no commit. -/
theorem commit_staged_check_witness :
    saveStep true false "Downloaded {downloaded} URLs" ⟨[drSample], []⟩ (Except.ok ())
      = Except.ok CommitAction.noCommit :=
  (commit_staged_check true false "Downloaded {downloaded} URLs" ⟨[drSample], []⟩
    (by simp) rfl (Or.inl rfl)).1

/-! ### Helper lemmas for the line codec: newline search -/

theorem findNL_none (l : List Nat) (h : 10 ∉ l) :
    l.findIdx? (fun b => b == 10) = none := by
  rw [List.findIdx?_eq_none_iff]
  intro x hx
  exact beq_eq_false_iff_ne.mpr fun hx10 => h (hx10 ▸ hx)

theorem findNL_append_aux : ∀ (a b : List Nat) (i : Nat), 10 ∉ a →
    List.findIdx? (fun x => x == 10) (a ++ 10 :: b) i = some (a.length + i) := by
  intro a
  induction a with
  | nil =>
    intro b i _
    simp [List.findIdx?_cons]
  | cons c a' ih =>
    intro b i h
    rw [List.cons_append, List.findIdx?_cons]
    have hc : (c == 10) = false :=
      beq_eq_false_iff_ne.mpr fun hc => h (hc ▸ List.mem_cons_self c a')
    rw [if_neg (by simp [hc])]
    rw [ih b (i + 1) fun hx => h (List.mem_cons_of_mem c hx)]
    congr 1
    simp only [List.length_cons]
    omega

theorem findNL_append (a b : List Nat) (h : 10 ∉ a) :
    (a ++ 10 :: b).findIdx? (fun x => x == 10) = some a.length := by
  simpa using findNL_append_aux a b 0 h

/-! ### Helper lemmas: decodeBody branch equations -/

theorem decodeBody_eq_disc_found (st : BinaryLinesCodec) (buf : List Nat) (offset : Nat)
    (hd : st.is_discarding = true)
    (hf : ((buf.take (min (st.max_length + 1) buf.length)).drop st.next_index).findIdx?
        (fun b => b == 10) = some offset) :
    decodeBody st buf
      = StepOut.again ⟨0, st.max_length, false⟩ (buf.drop (offset + st.next_index + 1)) := by
  simp only [decodeBody.eq_def]
  rw [hd, hf]

theorem decodeBody_eq_disc_none_stop (st : BinaryLinesCodec) (buf : List Nat)
    (hd : st.is_discarding = true)
    (hf : ((buf.take (min (st.max_length + 1) buf.length)).drop st.next_index).findIdx?
        (fun b => b == 10) = none)
    (he : buf.drop (min (st.max_length + 1) buf.length) = []) :
    decodeBody st buf = StepOut.yield DecodeResult.pending ⟨0, st.max_length, true⟩ [] := by
  simp only [decodeBody.eq_def]
  rw [hd, hf, he]
  rfl

theorem decodeBody_eq_disc_none_go (st : BinaryLinesCodec) (buf : List Nat)
    (hd : st.is_discarding = true)
    (hf : ((buf.take (min (st.max_length + 1) buf.length)).drop st.next_index).findIdx?
        (fun b => b == 10) = none)
    (he : buf.drop (min (st.max_length + 1) buf.length) ≠ []) :
    decodeBody st buf
      = StepOut.again ⟨0, st.max_length, true⟩
          (buf.drop (min (st.max_length + 1) buf.length)) := by
  simp only [decodeBody.eq_def]
  rw [hd, hf]
  rw [if_neg (by simpa [List.isEmpty_iff] using he)]

theorem decodeBody_eq_norm_found (st : BinaryLinesCodec) (buf : List Nat) (offset : Nat)
    (hd : st.is_discarding = false)
    (hf : ((buf.take (min (st.max_length + 1) buf.length)).drop st.next_index).findIdx?
        (fun b => b == 10) = some offset) :
    decodeBody st buf
      = StepOut.yield
          (DecodeResult.frame (without_carriage_return (buf.take (offset + st.next_index))))
          ⟨0, st.max_length, false⟩ (buf.drop (offset + st.next_index + 1)) := by
  simp only [decodeBody.eq_def]
  rw [hd, hf]

theorem decodeBody_eq_norm_none_err (st : BinaryLinesCodec) (buf : List Nat)
    (hd : st.is_discarding = false)
    (hf : ((buf.take (min (st.max_length + 1) buf.length)).drop st.next_index).findIdx?
        (fun b => b == 10) = none)
    (hlen : st.max_length < buf.length) :
    decodeBody st buf
      = StepOut.yield DecodeResult.maxLineLengthExceeded
          ⟨st.next_index, st.max_length, true⟩ buf := by
  simp only [decodeBody.eq_def]
  rw [hd, hf]
  rw [if_pos hlen]

theorem decodeBody_eq_norm_none_pending (st : BinaryLinesCodec) (buf : List Nat)
    (hd : st.is_discarding = false)
    (hf : ((buf.take (min (st.max_length + 1) buf.length)).drop st.next_index).findIdx?
        (fun b => b == 10) = none)
    (hlen : ¬ st.max_length < buf.length) :
    decodeBody st buf
      = StepOut.yield DecodeResult.pending
          ⟨min (st.max_length + 1) buf.length, st.max_length, false⟩ buf := by
  simp only [decodeBody.eq_def]
  rw [hd, hf]
  rw [if_neg hlen]

/-! ### Helper lemmas: decodeBody case analysis -/

theorem window_nonempty_of_some {buf : List Nat} {n m offset : Nat}
    (hf : ((buf.take m).drop n).findIdx? (fun b => b == 10) = some offset) : buf ≠ [] := by
  intro hb
  subst hb
  simp [List.findIdx?_nil] at hf

theorem decodeBody_again_shrinks (st st' : BinaryLinesCodec) (buf buf' : List Nat)
    (h : decodeBody st buf = StepOut.again st' buf') : buf'.length < buf.length := by
  cases hd : st.is_discarding with
  | true =>
    cases hf : ((buf.take (min (st.max_length + 1) buf.length)).drop st.next_index).findIdx?
        (fun b => b == 10) with
    | some offset =>
      rw [decodeBody_eq_disc_found st buf offset hd hf] at h
      injection h with h1 h2
      subst h2
      have hb : buf ≠ [] := window_nonempty_of_some hf
      have hb1 : 1 ≤ buf.length := by
        have := List.length_pos.mpr hb
        omega
      rw [List.length_drop]
      omega
    | none =>
      by_cases he : buf.drop (min (st.max_length + 1) buf.length) = []
      · rw [decodeBody_eq_disc_none_stop st buf hd hf he] at h
        cases h
      · rw [decodeBody_eq_disc_none_go st buf hd hf he] at h
        injection h with h1 h2
        subst h2
        have hb : buf ≠ [] := by
          intro hbuf
          exact he (by simp [hbuf])
        have hb1 : 1 ≤ buf.length := by
          have := List.length_pos.mpr hb
          omega
        rw [List.length_drop]
        omega
  | false =>
    cases hf : ((buf.take (min (st.max_length + 1) buf.length)).drop st.next_index).findIdx?
        (fun b => b == 10) with
    | some offset =>
      rw [decodeBody_eq_norm_found st buf offset hd hf] at h
      cases h
    | none =>
      by_cases hlen : st.max_length < buf.length
      · rw [decodeBody_eq_norm_none_err st buf hd hf hlen] at h
        cases h
      · rw [decodeBody_eq_norm_none_pending st buf hd hf hlen] at h
        cases h

theorem decodeBody_frame_shrinks (st st' : BinaryLinesCodec) (buf buf' : List Nat)
    (l : List Nat) (h : decodeBody st buf = StepOut.yield (DecodeResult.frame l) st' buf') :
    buf'.length < buf.length := by
  cases hd : st.is_discarding with
  | true =>
    cases hf : ((buf.take (min (st.max_length + 1) buf.length)).drop st.next_index).findIdx?
        (fun b => b == 10) with
    | some offset =>
      rw [decodeBody_eq_disc_found st buf offset hd hf] at h
      cases h
    | none =>
      by_cases he : buf.drop (min (st.max_length + 1) buf.length) = []
      · rw [decodeBody_eq_disc_none_stop st buf hd hf he] at h
        injection h with h1 h2
        cases h1
      · rw [decodeBody_eq_disc_none_go st buf hd hf he] at h
        cases h
  | false =>
    cases hf : ((buf.take (min (st.max_length + 1) buf.length)).drop st.next_index).findIdx?
        (fun b => b == 10) with
    | some offset =>
      rw [decodeBody_eq_norm_found st buf offset hd hf] at h
      injection h with h1 h2 h3
      subst h3
      have hb : buf ≠ [] := window_nonempty_of_some hf
      have hb1 : 1 ≤ buf.length := by
        have := List.length_pos.mpr hb
        omega
      rw [List.length_drop]
      omega
    | none =>
      by_cases hlen : st.max_length < buf.length
      · rw [decodeBody_eq_norm_none_err st buf hd hf hlen] at h
        injection h with h1 h2
        cases h1
      · rw [decodeBody_eq_norm_none_pending st buf hd hf hlen] at h
        injection h with h1 h2
        cases h1

theorem decodeBody_err_state (st st' : BinaryLinesCodec) (buf buf' : List Nat)
    (h : decodeBody st buf = StepOut.yield DecodeResult.maxLineLengthExceeded st' buf') :
    st.is_discarding = false ∧ st' = ⟨st.next_index, st.max_length, true⟩ ∧ buf' = buf := by
  cases hd : st.is_discarding with
  | true =>
    cases hf : ((buf.take (min (st.max_length + 1) buf.length)).drop st.next_index).findIdx?
        (fun b => b == 10) with
    | some offset =>
      rw [decodeBody_eq_disc_found st buf offset hd hf] at h
      cases h
    | none =>
      by_cases he : buf.drop (min (st.max_length + 1) buf.length) = []
      · rw [decodeBody_eq_disc_none_stop st buf hd hf he] at h
        injection h with h1 h2
        cases h1
      · rw [decodeBody_eq_disc_none_go st buf hd hf he] at h
        cases h
  | false =>
    cases hf : ((buf.take (min (st.max_length + 1) buf.length)).drop st.next_index).findIdx?
        (fun b => b == 10) with
    | some offset =>
      rw [decodeBody_eq_norm_found st buf offset hd hf] at h
      injection h with h1 h2
      cases h1
    | none =>
      by_cases hlen : st.max_length < buf.length
      · rw [decodeBody_eq_norm_none_err st buf hd hf hlen] at h
        injection h with h1 h2 h3
        exact ⟨rfl, h2.symm, h3.symm⟩
      · rw [decodeBody_eq_norm_none_pending st buf hd hf hlen] at h
        injection h with h1 h2
        cases h1

/-! ### Helper lemmas: fuel sufficiency and unfolding equations for decode -/

theorem decodeLoop_congr : ∀ (f1 f2 : Nat) (st : BinaryLinesCodec) (buf : List Nat),
    buf.length < f1 → buf.length < f2 → decodeLoop f1 st buf = decodeLoop f2 st buf := by
  intro f1
  induction f1 with
  | zero =>
    intro f2 st buf h1 h2
    exact absurd h1 (Nat.not_lt_zero _)
  | succ n ih =>
    intro f2 st buf h1 h2
    cases f2 with
    | zero => exact absurd h2 (Nat.not_lt_zero _)
    | succ m =>
      simp only [decodeLoop]
      cases hb : decodeBody st buf with
      | yield r st' buf' => rfl
      | again st' buf' =>
        have hs := decodeBody_again_shrinks st st' buf buf' hb
        exact ih m st' buf' (by omega) (by omega)

theorem decode_of_yield (st : BinaryLinesCodec) (buf : List Nat) (r : DecodeResult)
    (st' : BinaryLinesCodec) (buf' : List Nat)
    (h : decodeBody st buf = StepOut.yield r st' buf') :
    BinaryLinesCodec.decode st buf = (r, st', buf') := by
  unfold BinaryLinesCodec.decode
  simp only [decodeLoop]
  rw [h]

theorem decode_of_again (st : BinaryLinesCodec) (buf : List Nat)
    (st' : BinaryLinesCodec) (buf' : List Nat)
    (h : decodeBody st buf = StepOut.again st' buf') :
    BinaryLinesCodec.decode st buf = BinaryLinesCodec.decode st' buf' := by
  have hs := decodeBody_again_shrinks st st' buf buf' h
  unfold BinaryLinesCodec.decode
  simp only [decodeLoop]
  rw [h]
  exact decodeLoop_congr buf.length (buf'.length + 1) st' buf' (by omega) (by omega)

theorem decodeLoop_frame_shrinks : ∀ (f : Nat) (st : BinaryLinesCodec) (buf : List Nat)
    (l : List Nat) (st' : BinaryLinesCodec) (buf' : List Nat),
    decodeLoop f st buf = (DecodeResult.frame l, st', buf') → buf'.length < buf.length := by
  intro f
  induction f with
  | zero =>
    intro st buf l st' buf' h
    injection h with h1 h2
    cases h1
  | succ n ih =>
    intro st buf l st' buf' h
    simp only [decodeLoop] at h
    cases hb : decodeBody st buf with
    | yield r s b =>
      rw [hb] at h
      injection h with h1 h2
      injection h2 with h2 h3
      rw [← h3]
      exact decodeBody_frame_shrinks st s buf b l (by rw [hb, h1])
    | again s b =>
      rw [hb] at h
      have hs := decodeBody_again_shrinks st s buf b hb
      have := ih s b l st' buf' h
      omega

theorem decodeLoop_err_cases : ∀ (f : Nat) (st : BinaryLinesCodec) (buf : List Nat)
    (st' : BinaryLinesCodec) (buf' : List Nat),
    decodeLoop f st buf = (DecodeResult.maxLineLengthExceeded, st', buf') →
    st'.is_discarding = true ∧
      ((st.is_discarding = false ∧ buf' = buf) ∨ buf'.length < buf.length) := by
  intro f
  induction f with
  | zero =>
    intro st buf st' buf' h
    injection h with h1 h2
    cases h1
  | succ n ih =>
    intro st buf st' buf' h
    simp only [decodeLoop] at h
    cases hb : decodeBody st buf with
    | yield r s b =>
      rw [hb] at h
      injection h with h1 h2
      injection h2 with h2 h3
      obtain ⟨hd, hs, hbuf⟩ := decodeBody_err_state st s buf b (by rw [hb, h1])
      refine ⟨?_, Or.inl ⟨hd, ?_⟩⟩
      · rw [← h2, hs]
      · rw [← h3, hbuf]
    | again s b =>
      rw [hb] at h
      have hs := decodeBody_again_shrinks st s buf b hb
      obtain ⟨hdisc, hrest⟩ := ih s b st' buf' h
      refine ⟨hdisc, Or.inr ?_⟩
      rcases hrest with ⟨_, rfl⟩ | hlt
      · exact hs
      · omega

theorem decode_frame_shrinks (st : BinaryLinesCodec) (buf : List Nat) (l : List Nat)
    (st' : BinaryLinesCodec) (buf' : List Nat)
    (h : BinaryLinesCodec.decode st buf = (DecodeResult.frame l, st', buf')) :
    buf'.length < buf.length :=
  decodeLoop_frame_shrinks (buf.length + 1) st buf l st' buf' h

theorem decode_err_cases (st : BinaryLinesCodec) (buf : List Nat)
    (st' : BinaryLinesCodec) (buf' : List Nat)
    (h : BinaryLinesCodec.decode st buf = (DecodeResult.maxLineLengthExceeded, st', buf')) :
    st'.is_discarding = true ∧
      ((st.is_discarding = false ∧ buf' = buf) ∨ buf'.length < buf.length) :=
  decodeLoop_err_cases (buf.length + 1) st buf st' buf' h

/-! ### Helper lemmas: fuel sufficiency and unfolding equations for drain -/

theorem drainLoop_congr : ∀ (f1 f2 : Nat) (st : BinaryLinesCodec) (buf : List Nat),
    2 * buf.length + (if st.is_discarding then 0 else 1) < f1 →
    2 * buf.length + (if st.is_discarding then 0 else 1) < f2 →
    drainLoop f1 st buf = drainLoop f2 st buf := by
  intro f1
  induction f1 with
  | zero =>
    intro f2 st buf h1 h2
    exact absurd h1 (Nat.not_lt_zero _)
  | succ n ih =>
    intro f2 st buf h1 h2
    cases f2 with
    | zero => exact absurd h2 (Nat.not_lt_zero _)
    | succ m =>
      have ha : (if st.is_discarding then 0 else 1) ≤ 1 := by split <;> omega
      simp only [drainLoop]
      rcases hdec : BinaryLinesCodec.decode st buf with ⟨r, st', buf'⟩
      cases r with
      | frame l =>
        dsimp only
        have hs := decode_frame_shrinks st buf l st' buf' hdec
        have ha' : (if st'.is_discarding then 0 else 1) ≤ 1 := by split <;> omega
        rw [ih m st' buf' (by omega) (by omega)]
      | maxLineLengthExceeded =>
        dsimp only
        obtain ⟨hdisc, hrest⟩ := decode_err_cases st buf st' buf' hdec
        have ha' : (if st'.is_discarding then 0 else 1) = 0 := by simp [hdisc]
        have hgap : (if st.is_discarding then 0 else 1) = 1 ∨ buf'.length < buf.length := by
          rcases hrest with ⟨hd0, hbe⟩ | hlt
          · exact Or.inl (by simp [hd0])
          · exact Or.inr hlt
        have hb' : buf'.length ≤ buf.length := by
          rcases hrest with ⟨hd0, hbe⟩ | hlt
          · exact hbe ▸ Nat.le_refl _
          · omega
        rcases hgap with hg | hg
        · rw [ih m st' buf' (by omega) (by omega)]
        · rw [ih m st' buf' (by omega) (by omega)]
      | pending => rfl

theorem drainLoop_succ (fuel : Nat) (st : BinaryLinesCodec) (buf : List Nat) :
    drainLoop (fuel + 1) st buf
      = match BinaryLinesCodec.decode st buf with
        | (DecodeResult.frame l, st', buf') =>
            (StreamItem.frame l :: (drainLoop fuel st' buf').1, (drainLoop fuel st' buf').2)
        | (DecodeResult.maxLineLengthExceeded, st', buf') =>
            (StreamItem.decodeError :: (drainLoop fuel st' buf').1,
              (drainLoop fuel st' buf').2)
        | (DecodeResult.pending, st', buf') => ([], st', buf') := rfl

theorem drain_of_pending (st : BinaryLinesCodec) (buf : List Nat)
    (st' : BinaryLinesCodec) (buf' : List Nat)
    (h : BinaryLinesCodec.decode st buf = (DecodeResult.pending, st', buf')) :
    drain st buf = ([], st', buf') := by
  unfold drain
  rw [drainLoop_succ, h]

theorem drain_of_frame (st : BinaryLinesCodec) (buf : List Nat) (l : List Nat)
    (st' : BinaryLinesCodec) (buf' : List Nat)
    (h : BinaryLinesCodec.decode st buf = (DecodeResult.frame l, st', buf')) :
    drain st buf = (StreamItem.frame l :: (drain st' buf').1, (drain st' buf').2) := by
  have hs := decode_frame_shrinks st buf l st' buf' h
  have ha' : (if st'.is_discarding then 0 else 1) ≤ 1 := by split <;> omega
  unfold drain
  rw [drainLoop_succ, h]
  dsimp only
  rw [drainLoop_congr (2 * buf.length + 1) (2 * buf'.length + 2) st' buf'
    (by omega) (by omega)]

theorem drain_of_err (st : BinaryLinesCodec) (buf : List Nat)
    (st' : BinaryLinesCodec) (buf' : List Nat)
    (h : BinaryLinesCodec.decode st buf = (DecodeResult.maxLineLengthExceeded, st', buf')) :
    drain st buf = (StreamItem.decodeError :: (drain st' buf').1, (drain st' buf').2) := by
  obtain ⟨hdisc, hrest⟩ := decode_err_cases st buf st' buf' h
  have ha' : (if st'.is_discarding then 0 else 1) = 0 := by simp [hdisc]
  unfold drain
  rw [drainLoop_succ, h]
  dsimp only
  have hgap : (if st.is_discarding then 0 else 1) = 1 ∨ buf'.length < buf.length := by
    rcases hrest with ⟨hd0, hbe⟩ | hlt
    · exact Or.inl (by simp [hd0])
    · exact Or.inr hlt
  have hb' : buf'.length ≤ buf.length := by
    rcases hrest with ⟨hd0, hbe⟩ | hlt
    · exact hbe ▸ Nat.le_refl _
    · omega
  rcases hgap with hg | hg
  · rw [drainLoop_congr (2 * buf.length + 1) (2 * buf'.length + 2) st' buf'
      (by omega) (by omega)]
  · rw [drainLoop_congr (2 * buf.length + 1) (2 * buf'.length + 2) st' buf'
      (by omega) (by omega)]

theorem drain_congr_decode (st1 st2 : BinaryLinesCodec) (b1 b2 : List Nat)
    (h : BinaryLinesCodec.decode st1 b1 = BinaryLinesCodec.decode st2 b2) :
    drain st1 b1 = drain st2 b2 := by
  rcases hd : BinaryLinesCodec.decode st2 b2 with ⟨r, st', buf'⟩
  cases r with
  | frame l =>
    rw [drain_of_frame st1 b1 l st' buf' (h.trans hd), drain_of_frame st2 b2 l st' buf' hd]
  | maxLineLengthExceeded =>
    rw [drain_of_err st1 b1 st' buf' (h.trans hd), drain_of_err st2 b2 st' buf' hd]
  | pending =>
    rw [drain_of_pending st1 b1 st' buf' (h.trans hd), drain_of_pending st2 b2 st' buf' hd]

/-! ### Helper lemmas: list surgery around the newline window -/

theorem window_split (n rt : Nat) (a b : List Nat) (h1 : a.length + 1 ≤ rt)
    (h2 : n ≤ a.length) :
    ((a ++ 10 :: b).take rt).drop n = a.drop n ++ 10 :: b.take (rt - a.length - 1) := by
  rw [List.take_append_eq_append_take]
  rw [List.take_of_length_le (by omega)]
  have hrt : rt - a.length = (rt - a.length - 1) + 1 := by omega
  rw [hrt, List.take_succ_cons]
  rw [List.drop_append_eq_append_drop]
  rw [Nat.sub_eq_zero_of_le h2, List.drop_zero]
  have harith : rt - a.length - 1 + 1 - 1 = rt - a.length - 1 := by omega
  rw [harith]

theorem append_overlap (buf X c Y : List Nat) (h : buf ++ X = c ++ Y)
    (hlen : c.length ≤ buf.length) :
    buf = c ++ buf.drop c.length ∧ buf.drop c.length ++ X = Y := by
  constructor
  · have h1 : (buf ++ X).take c.length = c := by
      rw [h]
      exact List.take_left c Y
    rw [List.take_append_eq_append_take, Nat.sub_eq_zero_of_le hlen, List.take_zero,
      List.append_nil] at h1
    conv_lhs => rw [← List.take_append_drop c.length buf]
    rw [h1]
  · have h3 : (buf ++ X).drop c.length = Y := by
      rw [h]
      exact List.drop_left c Y
    rwa [List.drop_append_eq_append_drop, Nat.sub_eq_zero_of_le hlen, List.drop_zero] at h3

theorem drop_append_cons (a : List Nat) (x : Nat) (b : List Nat) :
    (a ++ x :: b).drop (a.length + 1) = b := by
  rw [List.drop_append_eq_append_drop]
  rw [List.drop_of_length_le (by omega)]
  have : a.length + 1 - a.length = 1 := by omega
  rw [this, List.nil_append, List.drop_succ_cons, List.drop_zero]

theorem take_append_cons (a : List Nat) (x : Nat) (b : List Nat) :
    (a ++ x :: b).take a.length = a := by
  rw [List.take_append_eq_append_take, Nat.sub_self, List.take_zero, List.append_nil]
  exact List.take_of_length_le (Nat.le_refl _)

/-! ### Helper lemmas: decode behavior on characterized buffers -/

theorem decode_line (n M : Nat) (a b : List Nat)
    (ha : 10 ∉ a) (haM : a.length ≤ M) (hn : n ≤ a.length) :
    BinaryLinesCodec.decode ⟨n, M, false⟩ (a ++ 10 :: b)
      = (DecodeResult.frame (without_carriage_return a), ⟨0, M, false⟩, b) := by
  have hlen : (a ++ 10 :: b).length = a.length + 1 + b.length := by
    simp [List.length_append]
    omega
  have hrt : a.length + 1 ≤ min (M + 1) (a ++ 10 :: b).length := by
    rw [hlen]
    omega
  have hw := window_split n (min (M + 1) (a ++ 10 :: b).length) a b hrt hn
  have hdn : 10 ∉ a.drop n := fun hx => ha (List.drop_subset n a hx)
  have hf : (((a ++ 10 :: b).take (min (M + 1) (a ++ 10 :: b).length)).drop n).findIdx?
      (fun x => x == 10) = some (a.length - n) := by
    rw [hw, findNL_append _ _ hdn, List.length_drop]
  have hb := decodeBody_eq_norm_found ⟨n, M, false⟩ (a ++ 10 :: b) (a.length - n) rfl hf
  have harith : a.length - n + n = a.length := by omega
  rw [harith] at hb
  rw [take_append_cons, drop_append_cons] at hb
  exact decode_of_yield _ _ _ _ _ hb

theorem decode_pending (n M : Nat) (buf : List Nat)
    (hb : 10 ∉ buf) (hM : buf.length ≤ M) :
    BinaryLinesCodec.decode ⟨n, M, false⟩ buf
      = (DecodeResult.pending, ⟨buf.length, M, false⟩, buf) := by
  have hf : ((buf.take (min (M + 1) buf.length)).drop n).findIdx? (fun x => x == 10)
      = none :=
    findNL_none _ fun hx => hb (List.take_subset _ _ (List.drop_subset _ _ hx))
  have hstep := decodeBody_eq_norm_none_pending ⟨n, M, false⟩ buf rfl hf
    (by show ¬ M < buf.length; omega)
  dsimp only at hstep
  have hmin : min (M + 1) buf.length = buf.length := by omega
  rw [hmin] at hstep
  exact decode_of_yield _ _ _ _ _ hstep

theorem decode_overlong (n M : Nat) (buf : List Nat)
    (hb : 10 ∉ buf.take (M + 1)) (hlen : M < buf.length) :
    BinaryLinesCodec.decode ⟨n, M, false⟩ buf
      = (DecodeResult.maxLineLengthExceeded, ⟨n, M, true⟩, buf) := by
  have hmin : min (M + 1) buf.length = M + 1 := by omega
  have hf : ((buf.take (min (M + 1) buf.length)).drop n).findIdx? (fun x => x == 10)
      = none := by
    rw [hmin]
    exact findNL_none _ fun hx => hb (List.drop_subset _ _ hx)
  exact decode_of_yield _ _ _ _ _
    (decodeBody_eq_norm_none_err ⟨n, M, false⟩ buf rfl hf hlen)

theorem decodeLoop_discard_all : ∀ (f n M : Nat) (buf : List Nat),
    buf.length < f → 10 ∉ buf →
    decodeLoop f ⟨n, M, true⟩ buf = (DecodeResult.pending, ⟨0, M, true⟩, []) := by
  intro f
  induction f with
  | zero =>
    intro n M buf h
    exact absurd h (Nat.not_lt_zero _)
  | succ fz ih =>
    intro n M buf h hb
    simp only [decodeLoop]
    have hf : ((buf.take (min (M + 1) buf.length)).drop n).findIdx? (fun x => x == 10)
        = none :=
      findNL_none _ fun hx => hb (List.take_subset _ _ (List.drop_subset _ _ hx))
    by_cases he : buf.drop (min (M + 1) buf.length) = []
    · rw [decodeBody_eq_disc_none_stop ⟨n, M, true⟩ buf rfl hf he]
    · rw [decodeBody_eq_disc_none_go ⟨n, M, true⟩ buf rfl hf he]
      dsimp only
      have hne : buf ≠ [] := fun hbuf => he (by simp [hbuf])
      have hb1 : 1 ≤ buf.length := by
        have := List.length_pos.mpr hne
        omega
      have hrt : 1 ≤ min (M + 1) buf.length := by omega
      have hd10 : 10 ∉ buf.drop (min (M + 1) buf.length) :=
        fun hx => hb (List.drop_subset _ _ hx)
      exact ih 0 M _ (by rw [List.length_drop]; omega) hd10

theorem decode_discard_all (n M : Nat) (buf : List Nat) (hb : 10 ∉ buf) :
    BinaryLinesCodec.decode ⟨n, M, true⟩ buf = (DecodeResult.pending, ⟨0, M, true⟩, []) :=
  decodeLoop_discard_all (buf.length + 1) n M buf (by omega) hb

theorem decodeLoop_discard_find : ∀ (f n M : Nat) (j rest : List Nat),
    (j ++ 10 :: rest).length < f → 10 ∉ j → n ≤ j.length →
    decodeLoop f ⟨n, M, true⟩ (j ++ 10 :: rest)
      = BinaryLinesCodec.decode ⟨0, M, false⟩ rest := by
  intro f
  induction f with
  | zero =>
    intro n M j rest h
    exact absurd h (Nat.not_lt_zero _)
  | succ fz ih =>
    intro n M j rest h hj hn
    have hL : (j ++ 10 :: rest).length = j.length + 1 + rest.length := by
      simp [List.length_append]
      omega
    simp only [decodeLoop]
    by_cases hcase : j.length + 1 ≤ min (M + 1) (j ++ 10 :: rest).length
    · have hw := window_split n (min (M + 1) (j ++ 10 :: rest).length) j rest hcase hn
      have hdn : 10 ∉ j.drop n := fun hx => hj (List.drop_subset n j hx)
      have hf : (((j ++ 10 :: rest).take
            (min (M + 1) (j ++ 10 :: rest).length)).drop n).findIdx?
          (fun x => x == 10) = some (j.length - n) := by
        rw [hw, findNL_append _ _ hdn, List.length_drop]
      have hstep := decodeBody_eq_disc_found ⟨n, M, true⟩ (j ++ 10 :: rest)
        (j.length - n) rfl hf
      have harith : j.length - n + n + 1 = j.length + 1 := by omega
      rw [harith, drop_append_cons] at hstep
      rw [hstep]
      dsimp only
      exact decodeLoop_congr fz (rest.length + 1) _ _ (by omega) (by omega)
    · have hmin : min (M + 1) (j ++ 10 :: rest).length = M + 1 := by omega
      have hMj : M + 1 ≤ j.length := by omega
      have htake : (j ++ 10 :: rest).take (min (M + 1) (j ++ 10 :: rest).length)
          = j.take (M + 1) := by
        rw [hmin, List.take_append_eq_append_take, Nat.sub_eq_zero_of_le hMj,
          List.take_zero, List.append_nil]
      have hf : (((j ++ 10 :: rest).take
            (min (M + 1) (j ++ 10 :: rest).length)).drop n).findIdx?
          (fun x => x == 10) = none := by
        rw [htake]
        exact findNL_none _ fun hx => hj (List.take_subset _ _ (List.drop_subset _ _ hx))
      have hdropeq : (j ++ 10 :: rest).drop (min (M + 1) (j ++ 10 :: rest).length)
          = j.drop (M + 1) ++ 10 :: rest := by
        rw [hmin, List.drop_append_eq_append_drop, Nat.sub_eq_zero_of_le hMj,
          List.drop_zero]
      have hne : (j ++ 10 :: rest).drop (min (M + 1) (j ++ 10 :: rest).length) ≠ [] := by
        rw [hdropeq]
        intro hc
        have := List.append_eq_nil.mp hc
        exact List.noConfusion this.2
      rw [decodeBody_eq_disc_none_go ⟨n, M, true⟩ (j ++ 10 :: rest) rfl hf hne]
      dsimp only
      rw [hdropeq]
      have hlen' : ((j.drop (M + 1)) ++ 10 :: rest).length < fz := by
        have : (j.drop (M + 1) ++ 10 :: rest).length
            = (j.drop (M + 1)).length + 1 + rest.length := by
          simp [List.length_append]
          omega
        rw [this, List.length_drop]
        omega
      exact ih 0 M (j.drop (M + 1)) rest hlen'
        (fun hx => hj (List.drop_subset _ _ hx)) (Nat.zero_le _)

theorem decode_discard_find (n M : Nat) (j rest : List Nat)
    (hj : 10 ∉ j) (hn : n ≤ j.length) :
    BinaryLinesCodec.decode ⟨n, M, true⟩ (j ++ 10 :: rest)
      = BinaryLinesCodec.decode ⟨0, M, false⟩ rest :=
  decodeLoop_discard_find ((j ++ 10 :: rest).length + 1) n M j rest (by omega) hj hn

/-! ### Helper lemmas: drain over a buffer of complete lines plus remainder -/

theorem drain_normal : ∀ (ls : List (List Nat)) (rem : List Nat) (n M : Nat),
    (∀ l ∈ ls, 10 ∉ l ∧ l.length ≤ M) → 10 ∉ rem → rem.length ≤ M →
    n ≤ (ls.headD rem).length →
    drain ⟨n, M, false⟩ ((ls.map (fun l => l ++ [10])).flatten ++ rem)
      = (ls.map (fun l => StreamItem.frame (without_carriage_return l)),
         ⟨rem.length, M, false⟩, rem) := by
  intro ls
  induction ls with
  | nil =>
    intro rem n M _ hrem hremM hn
    simp only [List.map_nil, List.flatten_nil, List.nil_append]
    exact drain_of_pending _ _ _ _ (decode_pending n M rem hrem hremM)
  | cons l ls ih =>
    intro rem n M hls hrem hremM hn
    have hbuf : (((l :: ls).map (fun x => x ++ [10])).flatten ++ rem)
        = l ++ 10 :: ((ls.map (fun x => x ++ [10])).flatten ++ rem) := by
      simp [List.map_cons, List.flatten_cons, List.append_assoc]
    rw [hbuf]
    obtain ⟨hl10, hlM⟩ := hls l (List.mem_cons_self _ _)
    have hn' : n ≤ l.length := by simpa using hn
    have hdec := decode_line n M l ((ls.map (fun x => x ++ [10])).flatten ++ rem)
      hl10 hlM hn'
    rw [drain_of_frame _ _ _ _ _ hdec]
    rw [ih rem 0 M (fun x hx => hls x (List.mem_cons_of_mem _ hx)) hrem hremM
      (Nat.zero_le _)]
    rfl

/-! ### Helper lemmas: the encoded stream and its decompositions -/

theorem encodeAll_eq_join_aux : ∀ (xs : List (List Nat)) (acc : List Nat),
    xs.foldl (fun buf x => BinaryLinesCodec.encode x buf) acc
      = acc ++ (xs.map (fun x => x ++ [10])).flatten := by
  intro xs
  induction xs with
  | nil => intro acc; simp
  | cons x xs ih =>
    intro acc
    simp only [List.foldl_cons, List.map_cons, List.flatten_cons]
    rw [ih]
    simp [BinaryLinesCodec.encode, List.append_assoc]

theorem encodeAll_eq_join (xs : List (List Nat)) :
    encodeAll xs = (xs.map (fun x => x ++ [10])).flatten := by
  simpa using encodeAll_eq_join_aux xs []

theorem wcr_eq_self (l : List Nat) (h : l.getLast? ≠ some 13) :
    without_carriage_return l = l := by
  unfold without_carriage_return
  rw [if_neg h]

theorem stream_decomp : ∀ (zs : List (List Nat)) (buf X : List Nat),
    (∀ z ∈ zs, 10 ∉ z) →
    buf ++ X = (zs.map (fun z => z ++ [10])).flatten →
    ∃ zs1 zs2 rem, zs = zs1 ++ zs2 ∧
      buf = (zs1.map (fun z => z ++ [10])).flatten ++ rem ∧ 10 ∉ rem ∧
      rem ++ X = (zs2.map (fun z => z ++ [10])).flatten ∧
      rem.length ≤ (zs2.headD rem).length ∧ (zs2 = [] → rem = []) := by
  intro zs
  induction zs with
  | nil =>
    intro buf X _ h
    simp only [List.map_nil, List.flatten_nil] at h
    obtain ⟨hbuf, hX⟩ := List.append_eq_nil.mp h
    subst hbuf hX
    exact ⟨[], [], [], rfl, by simp, by simp, by simp, by simp, fun _ => rfl⟩
  | cons z zs ih =>
    intro buf X hz h
    simp only [List.map_cons, List.flatten_cons] at h
    by_cases hb : buf.length ≤ z.length
    · have hbz : buf = z.take buf.length := by
        have h1 : (buf ++ X).take buf.length = buf := List.take_left buf X
        rw [h] at h1
        rw [List.append_assoc, List.take_append_eq_append_take,
          Nat.sub_eq_zero_of_le hb, List.take_zero, List.append_nil] at h1
        exact h1.symm
      have hb10 : 10 ∉ buf := fun hx =>
        hz z (List.mem_cons_self _ _) (List.take_subset _ _ (hbz ▸ hx))
      refine ⟨[], z :: zs, buf, rfl, by simp, hb10, ?_, ?_, ?_⟩
      · rw [h]
        simp [List.map_cons, List.flatten_cons, List.append_assoc]
      · simpa using hb
      · intro habs
        simp at habs
    · push_neg at hb
      have hlen : (z ++ [10]).length ≤ buf.length := by
        simp only [List.length_append, List.length_cons, List.length_nil]
        omega
      have h' : buf ++ X = (z ++ [10]) ++ (zs.map (fun w => w ++ [10])).flatten := by
        rw [h, List.append_assoc]
      obtain ⟨hbufeq, hrest⟩ := append_overlap buf X (z ++ [10])
        ((zs.map (fun w => w ++ [10])).flatten) h' hlen
      obtain ⟨zs1, zs2, rem, hzs, hbuf1, hrem, hrest2, hhead, hemp⟩ :=
        ih (buf.drop (z ++ [10]).length) X
          (fun w hw => hz w (List.mem_cons_of_mem _ hw)) hrest
      refine ⟨z :: zs1, zs2, rem, by rw [hzs, List.cons_append], ?_, hrem, hrest2, hhead, hemp⟩
      rw [hbufeq, hbuf1]
      simp [List.map_cons, List.flatten_cons, List.append_assoc]

theorem feedChunks_spec : ∀ (cs zs : List (List Nat)) (rem : List Nat) (M : Nat),
    (∀ z ∈ zs, 10 ∉ z ∧ z.length ≤ M) → 10 ∉ rem →
    rem.length ≤ (zs.headD rem).length → (zs = [] → rem = []) →
    rem ++ cs.flatten = (zs.map (fun z => z ++ [10])).flatten →
    feedChunks ⟨rem.length, M, false⟩ rem cs
      = (zs.map (fun z => StreamItem.frame (without_carriage_return z)),
         ⟨0, M, false⟩, []) := by
  intro cs
  induction cs with
  | nil =>
    intro zs rem M hz hrem hhead hempty h
    have hzs : zs = [] := by
      cases zs with
      | nil => rfl
      | cons z zs' =>
        exfalso
        apply hrem
        rw [List.flatten_nil, List.append_nil] at h
        rw [h]
        simp [List.map_cons, List.flatten_cons]
    subst hzs
    have hr : rem = [] := hempty rfl
    subst hr
    rfl
  | cons c cs ih =>
    intro zs rem M hz hrem hhead hempty h
    simp only [feedChunks]
    have h' : (rem ++ c) ++ cs.flatten = (zs.map (fun z => z ++ [10])).flatten := by
      rw [List.append_assoc]
      rw [List.flatten_cons] at h
      rw [← List.append_assoc] at h
      rw [List.append_assoc] at h
      exact h
    obtain ⟨zs1, zs2, rem', hzs, hbuf, hrem', hrest, hhead', hempty'⟩ :=
      stream_decomp zs (rem ++ c) cs.flatten (fun z hzz => (hz z hzz).1) h'
    have hm2 : rem'.length ≤ M := by
      cases hzs2 : zs2 with
      | nil => simp [hempty' hzs2]
      | cons w zs2' =>
        have hwmem : w ∈ zs := by
          rw [hzs, hzs2]
          exact List.mem_append_right zs1 (List.mem_cons_self _ _)
        have : rem'.length ≤ w.length := by
          rw [hzs2] at hhead'
          simpa using hhead'
        exact Nat.le_trans this (hz w hwmem).2
    have hm3 : rem.length ≤ (zs1.headD rem').length := by
      cases hzs1 : zs1 with
      | nil =>
        have hre : rem' = rem ++ c := by
          rw [hzs1] at hbuf
          simpa using hbuf.symm
        simp only [List.headD]
        rw [hre, List.length_append]
        omega
      | cons w zs1' =>
        have hhw : zs.headD rem = w := by
          rw [hzs, hzs1]
          rfl
        simp only [List.headD]
        calc rem.length ≤ (zs.headD rem).length := hhead
          _ = w.length := by rw [hhw]
    rw [hbuf]
    rw [drain_normal zs1 rem' rem.length M
      (fun x hx => hz x (hzs ▸ List.mem_append_left zs2 hx)) hrem' hm2 hm3]
    rw [ih zs2 rem' M (fun x hx => hz x (hzs ▸ List.mem_append_right zs1 hx))
      hrem' hhead' hempty' hrest]
    rw [hzs]
    simp [List.map_append]

theorem drainEof_empty (n M : Nat) : (drainEof ⟨n, M, false⟩ []).1 = [] := by
  have hdec : BinaryLinesCodec.decode ⟨n, M, false⟩ []
      = (DecodeResult.pending, ⟨0, M, false⟩, []) := by
    have := decode_pending n M [] (by simp) (Nat.zero_le M)
    simpa using this
  show (drainEofLoop (2 * ([] : List Nat).length + 2) ⟨n, M, false⟩ []).1 = []
  simp only [drainEofLoop, BinaryLinesCodec.decodeEof, hdec]
  simp

/-- C3 counterexample: the byte frame `[13]` (a lone CR, which contains
no LF) does not survive the encode/decode round trip: the decoder strips
the trailing CR and yields the empty frame instead. -/
theorem blc_roundtrip_counterexample :
    decodeChunked 65535 [BinaryLinesCodec.encode [13] []] = [StreamItem.frame []]
  ∧ decodeChunked 65535 [BinaryLinesCodec.encode [13] []] ≠ [StreamItem.frame [13]] := by
  constructor
  · decide
  · decide

/-- C3 (amended): for byte frames that contain no LF, do not end in CR,
and fit within the decoder's max_length, feeding the concatenation of
their encodings through the decoder yields exactly the frames in order,
for every way of splitting the concatenation into chunks. -/
theorem blc_roundtrip_chunked (M : Nat) (xs cs : List (List Nat))
    (hx : ∀ x ∈ xs, 10 ∉ x ∧ x.getLast? ≠ some 13 ∧ x.length ≤ M)
    (hc : cs.flatten = encodeAll xs) :
    decodeChunked M cs = xs.map StreamItem.frame := by
  unfold decodeChunked
  have hstart : BinaryLinesCodec.newWithMaxLength M
      = (⟨([] : List Nat).length, M, false⟩ : BinaryLinesCodec) := rfl
  rw [hstart]
  rw [feedChunks_spec cs xs [] M (fun z hz => ⟨(hx z hz).1, (hx z hz).2.2⟩)
    (by simp) (Nat.zero_le _) (fun _ => rfl)
    (by simpa [encodeAll_eq_join] using hc)]
  dsimp only
  rw [drainEof_empty]
  rw [List.append_nil]
  exact List.map_congr_left fun x hxm => by rw [wcr_eq_self x (hx x hxm).2.1]

/-- C3 witness: two frames, split across chunk boundaries, decode back
to themselves. -/
theorem blc_roundtrip_chunked_witness :
    decodeChunked 65535 [[97, 10, 98], [99, 10]]
      = [StreamItem.frame [97], StreamItem.frame [98, 99]] :=
  blc_roundtrip_chunked 65535 [[97], [98, 99]] [[97, 10, 98], [99, 10]]
    (by decide) (by decide)

/-! ### Helper lemmas: discarding phase after an over-long line -/

theorem feedChunks_discard : ∀ (cs : List (List Nat)) (q : List Nat)
    (ys : List (List Nat)) (M : Nat),
    10 ∉ q → (∀ y ∈ ys, 10 ∉ y ∧ y.length ≤ M) →
    cs.flatten = q ++ 10 :: (ys.map (fun z => z ++ [10])).flatten →
    feedChunks ⟨0, M, true⟩ [] cs
      = (ys.map (fun z => StreamItem.frame (without_carriage_return z)),
         ⟨0, M, false⟩, []) := by
  intro cs
  induction cs with
  | nil =>
    intro q ys M hq hys h
    exfalso
    have hL := congrArg List.length h
    simp [List.length_append] at hL
    omega
  | cons c cs ih =>
    intro q ys M hq hys h
    simp only [feedChunks, List.nil_append]
    rw [List.flatten_cons] at h
    by_cases hc : c.length ≤ q.length
    · have hov := append_overlap q (10 :: (ys.map (fun z => z ++ [10])).flatten)
        c cs.flatten h.symm hc
      have hc10 : 10 ∉ c := fun hx => hq (by rw [hov.1]; exact List.mem_append_left _ hx)
      rw [drain_of_pending _ _ _ _ (decode_discard_all 0 M c hc10)]
      dsimp only
      rw [ih (q.drop c.length) ys M (fun hx => hq (List.drop_subset _ _ hx)) hys
        hov.2.symm]
      rfl
    · push_neg at hc
      have hlen : (q ++ [10]).length ≤ c.length := by
        simp only [List.length_append, List.length_cons, List.length_nil]
        omega
      have h' : c ++ cs.flatten = (q ++ [10]) ++ (ys.map (fun z => z ++ [10])).flatten := by
        rw [h, List.append_assoc]
        rfl
      have hov := append_overlap c cs.flatten (q ++ [10])
        ((ys.map (fun z => z ++ [10])).flatten) h' hlen
      have hceq := hov.1
      rw [List.append_assoc, List.singleton_append] at hceq
      have hdec : BinaryLinesCodec.decode ⟨0, M, true⟩ c
          = BinaryLinesCodec.decode ⟨0, M, false⟩ (c.drop (q ++ [10]).length) := by
        conv_lhs => rw [hceq]
        exact decode_discard_find 0 M q _ hq (Nat.zero_le _)
      rw [drain_congr_decode _ _ _ _ hdec]
      obtain ⟨zs1, zs2, rem, hzs, hbuf, hrem, hrest, hhead, hemp⟩ :=
        stream_decomp ys (c.drop (q ++ [10]).length) cs.flatten
          (fun z hzz => (hys z hzz).1) hov.2
      have hm2 : rem.length ≤ M := by
        cases hzs2 : zs2 with
        | nil => simp [hemp hzs2]
        | cons w zs2' =>
          have hwmem : w ∈ ys := by
            rw [hzs, hzs2]
            exact List.mem_append_right zs1 (List.mem_cons_self _ _)
          have hrw : rem.length ≤ w.length := by
            rw [hzs2] at hhead
            simpa using hhead
          exact Nat.le_trans hrw (hys w hwmem).2
      rw [hbuf]
      rw [drain_normal zs1 rem 0 M
        (fun x hx => hys x (hzs ▸ List.mem_append_left zs2 hx)) hrem hm2 (Nat.zero_le _)]
      dsimp only
      rw [feedChunks_spec cs zs2 rem M
        (fun x hx => hys x (hzs ▸ List.mem_append_right zs1 hx)) hrem hhead hemp hrest]
      rw [hzs]
      simp [List.map_append]

/-! ### Helper lemmas: accumulation phase of an over-long line -/

theorem feedChunks_overlong : ∀ (cs : List (List Nat)) (p q : List Nat)
    (ys : List (List Nat)) (M : Nat),
    10 ∉ p → 10 ∉ q → p.length ≤ M → M < p.length + q.length →
    (∀ y ∈ ys, 10 ∉ y ∧ y.length ≤ M) →
    cs.flatten = q ++ 10 :: (ys.map (fun z => z ++ [10])).flatten →
    feedChunks ⟨p.length, M, false⟩ p cs
      = (StreamItem.decodeError ::
           ys.map (fun z => StreamItem.frame (without_carriage_return z)),
         ⟨0, M, false⟩, []) := by
  intro cs
  induction cs with
  | nil =>
    intro p q ys M hp hq hpM hlong hys h
    exfalso
    have hL := congrArg List.length h
    simp [List.length_append] at hL
    omega
  | cons c cs ih =>
    intro p q ys M hp hq hpM hlong hys h
    simp only [feedChunks]
    rw [List.flatten_cons] at h
    by_cases hc : c.length ≤ q.length
    · have hov := append_overlap q (10 :: (ys.map (fun z => z ++ [10])).flatten)
        c cs.flatten h.symm hc
      have hc10 : 10 ∉ c := fun hx => hq (by rw [hov.1]; exact List.mem_append_left _ hx)
      have hpc10 : 10 ∉ p ++ c := by
        intro hx
        rcases List.mem_append.mp hx with hx | hx
        · exact hp hx
        · exact hc10 hx
      by_cases hfit : (p ++ c).length ≤ M
      · rw [drain_of_pending _ _ _ _ (decode_pending p.length M (p ++ c) hpc10 hfit)]
        dsimp only
        rw [ih (p ++ c) (q.drop c.length) ys M hpc10
          (fun hx => hq (List.drop_subset _ _ hx)) hfit
          (by rw [List.length_append, List.length_drop]; omega) hys hov.2.symm]
        rfl
      · push_neg at hfit
        have htk : 10 ∉ (p ++ c).take (M + 1) := fun hx => hpc10 (List.take_subset _ _ hx)
        rw [drain_of_err _ _ _ _ (decode_overlong p.length M (p ++ c) htk hfit)]
        rw [drain_of_pending _ _ _ _ (decode_discard_all p.length M (p ++ c) hpc10)]
        dsimp only
        rw [feedChunks_discard cs (q.drop c.length) ys M
          (fun hx => hq (List.drop_subset _ _ hx)) hys hov.2.symm]
        rfl
    · push_neg at hc
      have hlen : (q ++ [10]).length ≤ c.length := by
        simp only [List.length_append, List.length_cons, List.length_nil]
        omega
      have h' : c ++ cs.flatten = (q ++ [10]) ++ (ys.map (fun z => z ++ [10])).flatten := by
        rw [h, List.append_assoc]
        rfl
      have hov := append_overlap c cs.flatten (q ++ [10])
        ((ys.map (fun z => z ++ [10])).flatten) h' hlen
      have hceq := hov.1
      rw [List.append_assoc, List.singleton_append] at hceq
      have hbufeq : p ++ c = (p ++ q) ++ 10 :: c.drop (q ++ [10]).length := by
        rw [List.append_assoc]
        conv_lhs => rw [hceq]
      have hpq10 : 10 ∉ p ++ q := by
        intro hx
        rcases List.mem_append.mp hx with hx | hx
        · exact hp hx
        · exact hq hx
      have hpqlen : (p ++ q).length = p.length + q.length := List.length_append p q
      have hlong2 : M < (p ++ c).length := by
        have hce := congrArg List.length hbufeq
        simp only [List.length_append, List.length_cons] at hce ⊢
        omega
      have htk : 10 ∉ (p ++ c).take (M + 1) := by
        intro hx
        apply hpq10
        have htkeq : (p ++ c).take (M + 1)
            = ((p ++ q) ++ 10 :: c.drop (q ++ [10]).length).take (M + 1) := by
          rw [hbufeq]
        rw [htkeq, List.take_append_eq_append_take,
          Nat.sub_eq_zero_of_le (by omega), List.take_zero, List.append_nil] at hx
        exact List.take_subset _ _ hx
      rw [drain_of_err _ _ _ _ (decode_overlong p.length M (p ++ c) htk hlong2)]
      have hdec : BinaryLinesCodec.decode ⟨p.length, M, true⟩ (p ++ c)
          = BinaryLinesCodec.decode ⟨0, M, false⟩ (c.drop (q ++ [10]).length) := by
        conv_lhs => rw [hbufeq]
        exact decode_discard_find p.length M (p ++ q) _ hpq10
          (by rw [hpqlen]; omega)
      rw [drain_congr_decode _ _ _ _ hdec]
      obtain ⟨zs1, zs2, rem, hzs, hbuf, hrem, hrest, hhead, hemp⟩ :=
        stream_decomp ys (c.drop (q ++ [10]).length) cs.flatten
          (fun z hzz => (hys z hzz).1) hov.2
      have hm2 : rem.length ≤ M := by
        cases hzs2 : zs2 with
        | nil => simp [hemp hzs2]
        | cons w zs2' =>
          have hwmem : w ∈ ys := by
            rw [hzs, hzs2]
            exact List.mem_append_right zs1 (List.mem_cons_self _ _)
          have hrw : rem.length ≤ w.length := by
            rw [hzs2] at hhead
            simpa using hhead
          exact Nat.le_trans hrw (hys w hwmem).2
      rw [hbuf]
      rw [drain_normal zs1 rem 0 M
        (fun x hx => hys x (hzs ▸ List.mem_append_left zs2 hx)) hrem hm2 (Nat.zero_le _)]
      dsimp only
      rw [feedChunks_spec cs zs2 rem M
        (fun x hx => hys x (hzs ▸ List.mem_append_right zs1 hx)) hrem hhead hemp hrest]
      rw [hzs]
      simp [List.map_append]

/-- C4: when the buffered line grows past max_length without a newline,
the decoder reports MaxLineLengthExceeded exactly once, produces no
frame for the over-long line while discarding through its terminating
newline, and the next frame produced is the line immediately following
that newline, after which decoding proceeds normally - for any chunking
of the stream. -/
theorem blc_maxlen_recovery (M : Nat) (junk : List Nat) (ys cs : List (List Nat))
    (hjNL : 10 ∉ junk) (hjlen : M < junk.length)
    (hy : ∀ y ∈ ys, 10 ∉ y ∧ y.getLast? ≠ some 13 ∧ y.length ≤ M)
    (hc : cs.flatten = junk ++ 10 :: encodeAll ys) :
    decodeChunked M cs = StreamItem.decodeError :: ys.map StreamItem.frame := by
  unfold decodeChunked
  have hstart : BinaryLinesCodec.newWithMaxLength M
      = (⟨([] : List Nat).length, M, false⟩ : BinaryLinesCodec) := rfl
  rw [hstart]
  rw [feedChunks_overlong cs [] junk ys M (by simp) hjNL (by simp)
    (by simpa using hjlen) (fun y hyy => ⟨(hy y hyy).1, (hy y hyy).2.2⟩)
    (by simpa [encodeAll_eq_join] using hc)]
  dsimp only
  rw [drainEof_empty]
  rw [List.append_nil]
  rw [List.map_congr_left fun y hym => by rw [wcr_eq_self y (hy y hym).2.1]]

/-- C4 witness: a five-byte junk line against max_length 3, split across
chunks, yields one error and then the following frame. -/
theorem blc_maxlen_recovery_witness :
    decodeChunked 3 [[1, 1, 1], [1, 1, 10, 2], [3, 10]]
      = [StreamItem.decodeError, StreamItem.frame [2, 3]] :=
  blc_maxlen_recovery 3 [1, 1, 1, 1, 1] [[2, 3]] [[1, 1, 1], [1, 1, 10, 2], [3, 10]]
    (by decide) (by decide) (by decide) (by decide)

/-- C1 counterexample: a Progress record with `file = null` (no
total-size, no percent) makes the reader fail the pipeline with the
protocol-violation error, rather than being accepted and logged. -/
theorem reader_progress_no_file_counterexample :
    read_addurl true
      [AddURLOutput.progress 8192 none none
        ⟨"addurl", none, ["https://www.httpwatch.com/httpgallery/chunked/chunkedimage.aspx"]⟩]
      ⟨[]⟩
      = TaskOutcome.fail "`git-annex addurl` outputted a line without a file" := by
  rfl

/-- C1 (amended): any addurl record whose file is absent - Progress as
well as Completion - fails the pipeline as a protocol violation; a
Progress record that does have a file is accepted and logged (with an
absent total-size rendered as "???" and an absent percent as "??.??%")
and the reader continues with the rest of the stream. -/
theorem reader_file_handling (sendOk : Bool) (r : AddURLOutput)
    (rest : List AddURLOutput) (ip : InProgress) (bp : Nat) (a : Action) (f : String)
    (hfile : a.file = some f) :
    (r.file = none →
        read_addurl sendOk (r :: rest) ip
          = TaskOutcome.fail "`git-annex addurl` outputted a line without a file")
  ∧ read_addurl sendOk (AddURLOutput.progress bp none none a :: rest) ip
      = (match read_addurl sendOk rest ip with
         | TaskOutcome.ok (sent, logs, ipf) =>
             TaskOutcome.ok (sent, LogEvent.progress f bp "???" "??.??%" :: logs, ipf)
         | other => other) := by
  constructor
  · intro hnone
    simp only [read_addurl, hnone]
  · simp only [read_addurl, AddURLOutput.file, hfile, AddURLOutput.check, Option.getD]

/-- C1 witness: a Progress record with a file and no total-size is
logged with the fallback renderings and does not fail. -/
theorem reader_file_handling_witness :
    read_addurl true [AddURLOutput.progress 8192 none none ⟨"addurl", some "g.txt", []⟩] ⟨[]⟩
      = TaskOutcome.ok ([], [LogEvent.progress "g.txt" 8192 "???" "??.??%"], ⟨[]⟩) := by
  rw [(reader_file_handling true (AddURLOutput.progress 8192 none none
    ⟨"addurl", some "g.txt", []⟩) [] ⟨[]⟩ 8192 ⟨"addurl", some "g.txt", []⟩ "g.txt" rfl).2]
  rfl

/-- C2 (evaluation of the code at the failing input): when the receiver
has exited, the reader's `sender.send(res).unwrap()` panics on the very
first successful completion instead of tolerating the send failure. -/
theorem reader_send_failure_panics :
    read_addurl false
      [AddURLOutput.completion none
        ⟨"addurl", some "f.txt", ["https://example.com/f f.txt"]⟩ ⟨true, []⟩ none]
      ⟨[("f.txt", dlSample)]⟩
      = TaskOutcome.panicked "called `Result::unwrap()` on an `Err` value" := by
  rfl

/-- C8: a DownloadResult whose download succeeded but whose key is
absent is appended to `successful` unchanged, the cannot-set-metadata
warning is logged exactly when metadata or extra URLs were requested,
and neither the metadata worker nor the register-URL worker is invoked
for it. -/
theorem postprocess_no_key (o : Oracles) (r : DownloadResult)
    (hok : r.download = Except.ok ()) (hkey : r.key = none) :
    processItem o r = Except.ok
      { item := r, toSuccessful := true,
        logs := if r.downloadable.metadata ≠ [] ∨ r.downloadable.extra_urls ≠ [] then
            [PostLog.cannotSetMetadata r.downloadable.path]
          else [],
        metadataCalls := [], registerurlCalls := [] }
  ∧ ∀ rest rep, add_metadata o rest = Except.ok rep →
      add_metadata o (r :: rest) = Except.ok ⟨r :: rep.successful, rep.failed⟩ := by
  have hpi : processItem o r = Except.ok
      { item := r, toSuccessful := true,
        logs := if r.downloadable.metadata ≠ [] ∨ r.downloadable.extra_urls ≠ [] then
            [PostLog.cannotSetMetadata r.downloadable.path]
          else [],
        metadataCalls := [], registerurlCalls := [] } := by
    unfold processItem
    rw [hok, hkey]
  refine ⟨hpi, ?_⟩
  intro rest rep hrest
  simp only [add_metadata]
  rw [hpi, hrest]
  rfl

/-- C8 witness: a keyless successful item passes straight into
`successful` with the workers untouched. -/
theorem postprocess_no_key_witness :
    add_metadata oSample [drSample] = Except.ok ⟨[drSample], []⟩ :=
  (postprocess_no_key oSample drSample rfl rfl).2 [] ⟨[], []⟩ rfl

end Gamdam
